import Mathlib

set_option maxRecDepth 4000

set_option allowUnsafeReducibility true

attribute [local semireducible] Rat.mul Rat.div Rat.sub Rat.add Rat.neg Rat.inv

/-!
Verification of the balancing engine of `src/solve.rs` (stoichkit).

The floating-point SVD solve (`nalgebra`) is not representable in a shallow
embedding; the pipeline is therefore parameterised by the solver output
`sol : List ℚ` (every finite `f32` produced by the solver is an exact
rational, which is what `Rational::from_f32` reconstructs).  Everything
before the solve (element-set check, matrix building) and after it
(denominator limiting, LCM scaling, u32 casting, balance verification)
follows `solve.rs` line by line.  Machine integers are modelled as `Nat`
with explicit range guards where the source converts (`to_u64`) or casts
(`as u32`); `u64` arithmetic inside the continued-fraction loop is modelled
exactly (the committed convergents are bounded by the input denominator,
so the realisable runs do not overflow).
-/

namespace StoichKit

/-- Modelled from the spec: a chemical element is an opaque comparable key
(its symbol); the periodic-table registry is out of scope. -/
abbrev Element := String

/-- Modelled from the spec: a `Compound` is a formula string plus an
element-to-count map (`HashMap<Element, u32>`), modelled as an association
list; the parser guarantees distinct keys and positive counts. -/
structure Compound where
  formula : String
  atoms : List (Element × Nat)
deriving DecidableEq

/-- Modelled from the spec: a `Reactant` is a compound paired with its molar
coefficient (a `u32`). -/
structure Reactant where
  compound : Compound
  molar_coefficient : Nat
deriving DecidableEq

/-- Mirror of `Reactant::of_compound`. -/
def Reactant.of_compound (c : Compound) (coeff : Nat) : Reactant :=
  ⟨c, coeff⟩

/-- Modelled from the spec: a `BalancedReaction` is an ordered reagent list and
an ordered product list of reactants, with structural equality. -/
structure BalancedReaction where
  reagents : List Reactant
  products : List Reactant
deriving DecidableEq

/-- Structured stand-in for the `String` errors of `solve.rs`: one constructor
per `format!` error site, carrying the data the message interpolates. -/
inductive BalanceErr where
  | unbalanceable (missing_products : List Element) (missing_reagents : List Element)
  | noNumerator
  | noDenominator
  | denomNotU64
  | scaledNotU64
  | notBalanced
deriving DecidableEq

/-- Mirror of `rug::Integer::to_u64`: succeeds exactly on values representable
in 64 bits. -/
def intToU64 (n : ℤ) : Option Nat :=
  if 0 ≤ n ∧ n < 2 ^ 64 then some n.toNat else none

/-- Denominator variant of the `to_u64` conversion (denominators are positive). -/
def natToU64 (n : Nat) : Option Nat :=
  if n < 2 ^ 64 then some n else none

/-- Mirrors `acc.entry(e).or_insert(0); *counter += v` on a `HashMap` modelled
as an association list: add `v` to the entry of `e`, inserting `v` when the key
is absent. -/
def insertAdd : List (Element × Nat) → Element → Nat → List (Element × Nat)
  | [], e, v => [(e, v)]
  | (k, c) :: rest, e, v =>
    if k = e then (k, c + v) :: rest else (k, c) :: insertAdd rest e v

/-- Inner loop of the `check_balance` folds: add every atom entry of one
compound, multiplied by the reactant coefficient (`*c as u64 * coeff as u64`),
into the accumulator map. -/
def addAtoms (acc : List (Element × Nat)) (atoms : List (Element × Nat)) (coeff : Nat) :
    List (Element × Nat) :=
  atoms.foldl (fun m p => insertAdd m p.1 (p.2 * coeff)) acc

/-- Per-element total map of one side, as built by `check_balance` in
`solve.rs`: fold over the reactants, accumulating count times coefficient. -/
def elemTotals (rs : List Reactant) : List (Element × Nat) :=
  rs.foldl (fun m r => addAtoms m r.compound.atoms r.molar_coefficient) []

/-- `HashMap` equality (`react_elems.eq(&prod_elems)`): same key set and the
same value at every key. -/
def mapEqB (m1 m2 : List (Element × Nat)) : Bool :=
  m1.all (fun p => m2.lookup p.1 = some p.2) && m2.all (fun p => m1.lookup p.1 = some p.2)

/-- Mirror of `check_balance` in `solve.rs` (the `Ok` wrapper is dropped: the
Rust function always returns `Ok`). -/
def check_balance (reactants products : List Reactant) : Bool :=
  mapEqB (elemTotals reactants) (elemTotals products)

/-- Element key list of one compound (`compound.atoms.keys()`). -/
def atomKeys (c : Compound) : List Element :=
  c.atoms.map Prod.fst

/-- The `HashSet` of elements of a compound list, modelled as a deduplicated
list (the iteration order of a Rust `HashSet` is arbitrary; the model fixes
one order, which only matters for row ordering of the matrix). -/
def elementSet (cs : List Compound) : List Element :=
  (cs.flatMap atomKeys).dedup

/-- `HashSet::eq`: set equality of two element collections. -/
def setEqB (a b : List Element) : Bool :=
  a.all (fun e => b.contains e) && b.all (fun e => a.contains e)

/-- Atom count of an element in a compound:
`compound.atoms.get(element).cloned().unwrap_or(0)`. -/
def countOf (c : Compound) (e : Element) : Nat :=
  (c.atoms.lookup e).getD 0

/-- The row-element list `all_atoms` of `balance`: the reagent element set
chained with the product element set (`reagent_atoms.iter().chain(product_atoms.iter())`). -/
def allAtoms (rg pd : List Compound) : List Element :=
  elementSet rg ++ elementSet pd

/-- The `all_compounds` vector of `balance`: the matrix-building closure
`push_atom` pushes every compound (reagents then products) once per row
element. -/
def allCompounds (rg pd : List Compound) : List Compound :=
  (allAtoms rg pd).flatMap (fun _ => rg ++ pd)

/-- Row-major data vector handed to `DMatrix::from_row_slice` by `balance`:
for each element of `all_atoms`, the atom counts of that element in every
compound, reagents then products. -/
def matrixData (rg pd : List Compound) : List Nat :=
  (allAtoms rg pd).flatMap (fun e => (rg ++ pd).map (fun c => countOf c e))

/-- Row count handed to `DMatrix::from_row_slice`: `elements.len()`. -/
def matrixRows (rg pd : List Compound) : Nat :=
  (allAtoms rg pd).length

/-- Column count handed to `DMatrix::from_row_slice`. -/
def matrixCols (rg pd : List Compound) : Nat :=
  rg.length + pd.length

/-- Number of distinct elements over all input compounds. -/
def distinctElementCount (rg pd : List Compound) : Nat :=
  ((rg ++ pd).flatMap atomKeys).dedup.length

/-- Continued-fraction loop of `limit_denominator`.  `none` models a panic:
either the division `n / d` with `d == 0`, or fuel exhaustion — the fuel
argument is only a termination device; `limit_denominator` passes `d + 1`,
which is proved below never to run out, since `d` strictly decreases. -/
def cfLoop (maxD : Nat) :
    Nat → Nat → Nat → Nat → Nat → Nat → Nat → Option (Nat × Nat × Nat × Nat)
  | 0, _, _, _, _, _, _ => none
  | fuel + 1, p0, q0, p1, q1, n, d =>
    if d = 0 then none
    else
      let a := n / d
      let q2 := q0 + a * q1
      if maxD < q2 then some (p0, q0, p1, q1)
      else cfLoop maxD fuel p1 q1 (p0 + a * p1) q2 d (n % d)

/-- Mirror of `limit_denominator` in `solve.rs`.  The outer `Option` layer
models panics inside the loop; the `Except` layer models the `Result`.
`mkRat` performs the same canonicalisation as `rug::Rational::from((p, q))`. -/
def limit_denominator (given : ℚ) (maxD : Nat) : Option (Except BalanceErr ℚ) :=
  if maxD < 1 ∨ given.den ≤ maxD then some (.ok given)
  else
    match intToU64 given.num with
    | none => some (.error .noNumerator)
    | some n =>
      match natToU64 given.den with
      | none => some (.error .noDenominator)
      | some d =>
        match cfLoop maxD (d + 1) 0 1 1 0 n d with
        | none => none
        | some (p0, q0, p1, q1) =>
          let k := (maxD - q0) / q1
          let bound1 : ℚ := mkRat (↑(p0 + k * p1)) (q0 + k * q1)
          let bound2 : ℚ := mkRat (↑p1) q1
          let d1f := bound1 - given
          let d2f := bound2 - given
          some (.ok (if |d1f| ≤ |d2f| then bound1 else bound2))

/-- The `rational_limited` step of `balance`: `limit_denominator(&r.abs(), 100)`
mapped over the solver rationals, short-circuiting on the first error and
propagating a panic. -/
def rationalLimited : List ℚ → Option (Except BalanceErr (List ℚ))
  | [] => some (.ok [])
  | r :: rest =>
    match limit_denominator |r| 100 with
    | none => none
    | some (.error e) => some (.error e)
    | some (.ok q) =>
      match rationalLimited rest with
      | none => none
      | some (.error e) => some (.error e)
      | some (.ok qs) => some (.ok (q :: qs))

/-- The `denominators` step of `balance`: each limited rational's denominator
converted to u64. -/
def denominatorsOf : List ℚ → Except BalanceErr (List Nat)
  | [] => .ok []
  | q :: rest =>
    match natToU64 q.den with
    | none => .error .denomNotU64
    | some d =>
      match denominatorsOf rest with
      | .error e => .error e
      | .ok ds => .ok (d :: ds)

/-- All 2-element combinations of a list, in the order
`itertools::combinations(2)` yields them. -/
def pairCombinations : List Nat → List (Nat × Nat)
  | [] => []
  | x :: xs => xs.map (fun y => (x, y)) ++ pairCombinations xs

/-- The `scale` computed by `balance`: fold of `max(acc, lcm(a, b))` over all
2-combinations of the denominators, starting from 1. -/
def computeScale (dens : List Nat) : Nat :=
  (pairCombinations dens).foldl (fun acc p => max acc (Nat.lcm p.1 p.2)) 1

/-- The `scaled_coeffs` step of `balance`: multiply each limited rational by the
scale and convert the numerator to u64.  Note that the source takes
`f.numer()` without checking that the denominator of the scaled value is 1. -/
def scaledOf (scale : Nat) : List ℚ → Except BalanceErr (List Nat)
  | [] => .ok []
  | q :: rest =>
    match intToU64 (q * (scale : ℚ)).num with
    | none => .error .scaledNotU64
    | some v =>
      match scaledOf scale rest with
      | .error e => .error e
      | .ok vs => .ok (v :: vs)

/-- The full `scaled_coeffs` vector of `balance` (with `scale` pushed at the
end), computed from the solver output through every fallible step in source
order. -/
def scaledCoeffsOf (sol : List ℚ) : Option (Except BalanceErr (List Nat)) :=
  match rationalLimited sol with
  | none => none
  | some (.error e) => some (.error e)
  | some (.ok rl) =>
    match denominatorsOf rl with
    | .error e => some (.error e)
    | .ok dens =>
      let scale := computeScale dens
      match scaledOf scale rl with
      | .error e => some (.error e)
      | .ok sc => some (.ok (sc ++ [scale]))

/-- Shallow embedding of `balance` in `solve.rs`, parameterised by the solver
output `sol` (the `coefficients` vector, exactly).  The element-set check, the
`all_compounds` bookkeeping, the rational pipeline, the `as u32` cast in
`Reactant::of_compound(c, coeff as u32)` (modelled as `% 2 ^ 32`), the
`split_at(reagents.len())` (whose Rust panic on a too-short result vector is
modelled as `none`), and the final `check_balance` gate follow the source. -/
def balanceWith (sol : List ℚ) (reagents products : List Compound) :
    Option (Except BalanceErr BalancedReaction) :=
  let reagent_atoms := elementSet reagents
  let product_atoms := elementSet products
  if !(setEqB reagent_atoms product_atoms) then
    some (.error (.unbalanceable
      (reagent_atoms.filter (fun e => !(product_atoms.contains e)))
      (product_atoms.filter (fun e => !(reagent_atoms.contains e)))))
  else
    match scaledCoeffsOf sol with
    | none => none
    | some (.error e) => some (.error e)
    | some (.ok scaled_coeffs) =>
      let result := ((allCompounds reagents products).zip scaled_coeffs).map
        (fun p => Reactant.of_compound p.1 (p.2 % 2 ^ 32))
      if result.length < reagents.length then
        none
      else
        let split := result.splitAt reagents.length
        if check_balance split.1 split.2 then
          some (.ok ⟨split.1, split.2⟩)
        else
          some (.error .notBalanced)

/-- Mathematical per-element atom total of one side:
the sum of `count(e) * molar_coefficient` over the reactant list. -/
def sumOf (rs : List Reactant) (e : Element) : Nat :=
  (rs.map (fun r => countOf r.compound e * r.molar_coefficient)).sum

/-- Well-formed compound: the atom association list has distinct keys
(guaranteed by the Rust `HashMap`). -/
def keysNodup (c : Compound) : Prop :=
  (atomKeys c).Nodup

instance (c : Compound) : Decidable (keysNodup c) := by
  unfold keysNodup; infer_instance

deriving instance DecidableEq for Except

/-- Lookup with default 0: the total a `HashMap<Element, u64>` map assigns to a
key, 0 when absent. -/
def lookupD (m : List (Element × Nat)) (x : Element) : Nat :=
  (m.lookup x).getD 0

/-- Sum of the values of all entries of an atom list at one key. -/
def entrySum (atoms : List (Element × Nat)) (x : Element) : Nat :=
  (atoms.map (fun p => if p.1 = x then p.2 else 0)).sum

/-- Per-reactant mathematical total counting every atom entry (duplicate keys
counted as the fold in `check_balance` does). -/
def entrySumOf (rs : List Reactant) (x : Element) : Nat :=
  (rs.map (fun r => entrySum r.compound.atoms x * r.molar_coefficient)).sum

/-- The reactant list a successful `balance` run builds: the `all_compounds`
vector zipped with the scaled coefficients, each coefficient cast to u32. -/
def resultList (rg pd : List Compound) (sc : List Nat) : List Reactant :=
  ((allCompounds rg pd).zip sc).map
    (fun p => Reactant.of_compound p.1 (p.2 % 2 ^ 32))

/-! Concrete inputs used by witnesses and counterexamples. -/

/-- The repository's own `Al + Cl2 = AlCl3` scenario. -/
def wAl : Compound := ⟨"Al", [("Al", 1)]⟩

def wCl2 : Compound := ⟨"Cl2", [("Cl", 2)]⟩

def wAlCl3 : Compound := ⟨"AlCl3", [("Al", 1), ("Cl", 3)]⟩

def wBr : BalancedReaction := ⟨[⟨wAl, 2⟩, ⟨wCl2, 3⟩], [⟨wAlCl3, 2⟩]⟩

/-- Zero-coefficient input: two reagents with the same single element, one
product; the linear system fixes the product coefficient to 1 and admits the
solution `[0, 1]` (the first reagent is redundant), which the pipeline turns
into an accepted `BalancedReaction` with molar coefficient 0. -/
def c3A : Compound := ⟨"A", [("X", 1)]⟩

def c3B : Compound := ⟨"B", [("X", 1)]⟩

def c3D : Compound := ⟨"D", [("X", 1)]⟩

def c3Br : BalancedReaction := ⟨[⟨c3A, 0⟩, ⟨c3B, 1⟩], [⟨c3D, 1⟩]⟩

/-- Mismatch input: iron on the reagent side only, oxygen on the product side
only. -/
def c2rg : List Compound := [⟨"A", [("Fe", 1)]⟩]

def c2pd : List Compound := [⟨"B", [("O", 1)]⟩]

/-- Non-integral-scaling input: denominators `{2, 3, 5}` give scale 15 although
the full LCM is 30, so `(1/2) * 15` is not an integer. -/
def c8A : Compound := ⟨"A", [("X", 1)]⟩

def c8B : Compound := ⟨"B", [("X", 3)]⟩

def c8C : Compound := ⟨"C", [("X", 5)]⟩

def c8D : Compound := ⟨"D", [("X", 3)]⟩

/-- Matrix-shape input: one single-element compound on each side. -/
def c4rg : List Compound := [⟨"A", [("X", 1)]⟩]

def c4pd : List Compound := [⟨"B", [("X", 1)]⟩]

/-! Lemmas about the association-list model of the `check_balance` total maps. -/

theorem lookup_cons_self {k : Element} {c : Nat} {rest : List (Element × Nat)} :
    List.lookup k ((k, c) :: rest) = some c := by
  simp [List.lookup]

theorem lookup_cons_ne {x k : Element} (h : ¬ x = k) {c : Nat}
    {rest : List (Element × Nat)} :
    List.lookup x ((k, c) :: rest) = List.lookup x rest := by
  simp [List.lookup, beq_false_of_ne h]

theorem lookupD_insertAdd (m : List (Element × Nat)) (e : Element) (v : Nat)
    (x : Element) :
    lookupD (insertAdd m e v) x = lookupD m x + if e = x then v else 0 := by
  induction m with
  | nil =>
    by_cases h : x = e
    · subst h
      simp [insertAdd, lookupD, List.lookup]
    · have he : ¬ e = x := fun hh => h hh.symm
      simp [insertAdd, lookupD, List.lookup, beq_false_of_ne h, he]
  | cons p rest ih =>
    obtain ⟨k, c⟩ := p
    by_cases hk : k = e
    · subst hk
      by_cases hx : x = k
      · subst hx
        simp [insertAdd, lookupD, lookup_cons_self]
      · have hkx : ¬ k = x := fun hh => hx hh.symm
        simp [insertAdd, lookupD, lookup_cons_ne hx, hkx]
    · have step : insertAdd ((k, c) :: rest) e v = (k, c) :: insertAdd rest e v := by
        simp [insertAdd, hk]
      rw [step]
      by_cases hx : x = k
      · subst hx
        have hex : ¬ e = x := fun hh => hk hh.symm
        simp [lookupD, lookup_cons_self, hex]
      · simp only [lookupD, lookup_cons_ne hx]
        exact ih

theorem lookupD_addAtoms (atoms : List (Element × Nat)) (acc : List (Element × Nat))
    (coeff : Nat) (x : Element) :
    lookupD (addAtoms acc atoms coeff) x = lookupD acc x + entrySum atoms x * coeff := by
  induction atoms generalizing acc with
  | nil => simp [addAtoms, entrySum]
  | cons p rest ih =>
    obtain ⟨k, c⟩ := p
    have step : addAtoms acc ((k, c) :: rest) coeff =
        addAtoms (insertAdd acc k (c * coeff)) rest coeff := rfl
    rw [step, ih, lookupD_insertAdd]
    by_cases hx : k = x
    · simp only [entrySum, List.map_cons, List.sum_cons, if_pos hx, Nat.add_mul]
      omega
    · simp only [entrySum, List.map_cons, List.sum_cons, if_neg hx, Nat.add_mul]
      omega

theorem lookupD_elemTotals_aux (rs : List Reactant) (acc : List (Element × Nat))
    (x : Element) :
    lookupD (rs.foldl (fun m r => addAtoms m r.compound.atoms r.molar_coefficient) acc) x
      = lookupD acc x + entrySumOf rs x := by
  induction rs generalizing acc with
  | nil => simp [entrySumOf]
  | cons r rest ih =>
    simp only [List.foldl_cons, ih, lookupD_addAtoms, entrySumOf, List.map_cons,
      List.sum_cons]
    omega

theorem lookupD_elemTotals (rs : List Reactant) (x : Element) :
    lookupD (elemTotals rs) x = entrySumOf rs x := by
  simpa [elemTotals, lookupD, List.lookup] using lookupD_elemTotals_aux rs [] x

theorem mem_of_lookup_eq_some {m : List (Element × Nat)} {x : Element} {v : Nat}
    (h : m.lookup x = some v) : (x, v) ∈ m := by
  induction m with
  | nil => simp [List.lookup] at h
  | cons p rest ih =>
    obtain ⟨k, c⟩ := p
    by_cases hk : x = k
    · subst hk
      rw [lookup_cons_self] at h
      cases h
      exact List.mem_cons_self _ _
    · rw [lookup_cons_ne hk] at h
      exact List.mem_cons_of_mem _ (ih h)

/-- Map equality as checked by `check_balance` implies pointwise equality of the
lookup-or-zero totals. -/
theorem mapEqB_lookupD {m1 m2 : List (Element × Nat)} (h : mapEqB m1 m2 = true)
    (x : Element) : lookupD m1 x = lookupD m2 x := by
  rw [mapEqB, Bool.and_eq_true] at h
  obtain ⟨h1, h2⟩ := h
  rw [List.all_eq_true] at h1 h2
  match hm : m1.lookup x with
  | some v =>
    have hmem := mem_of_lookup_eq_some hm
    have := h1 _ hmem
    simp only [decide_eq_true_eq] at this
    simp [lookupD, hm, this]
  | none =>
    match hm2 : m2.lookup x with
    | some w =>
      have hmem := mem_of_lookup_eq_some hm2
      have := h2 _ hmem
      simp only [decide_eq_true_eq] at this
      rw [hm] at this
      cases this
    | none => simp [lookupD, hm, hm2]

theorem entrySum_eq_zero_of_not_mem {atoms : List (Element × Nat)} {x : Element}
    (h : x ∉ atoms.map Prod.fst) : entrySum atoms x = 0 := by
  induction atoms with
  | nil => simp [entrySum]
  | cons p rest ih =>
    simp only [List.map_cons, List.mem_cons, not_or] at h
    have hp : ¬ p.1 = x := fun hh => h.1 hh.symm
    simp only [entrySum, List.map_cons, List.sum_cons, if_neg hp]
    simpa [entrySum] using ih h.2

theorem entrySum_eq_lookupD {atoms : List (Element × Nat)}
    (h : (atoms.map Prod.fst).Nodup) (x : Element) :
    entrySum atoms x = (atoms.lookup x).getD 0 := by
  induction atoms with
  | nil => simp [entrySum, List.lookup]
  | cons p rest ih =>
    obtain ⟨k, v⟩ := p
    simp only [List.map_cons, List.nodup_cons] at h
    by_cases hk : x = k
    · subst hk
      have hrest : entrySum rest x = 0 := entrySum_eq_zero_of_not_mem h.1
      simp only [entrySum] at hrest
      simp [entrySum, lookup_cons_self, hrest]
    · have hkx : ¬ k = x := fun hh => hk hh.symm
      simp only [entrySum, List.map_cons, List.sum_cons, if_neg hkx,
        lookup_cons_ne hk, Nat.zero_add]
      simpa [entrySum] using ih h.2

/-- On a compound with distinct atom keys, the entry sum collapses to the single
`HashMap` count. -/
theorem entrySum_eq_countOf {c : Compound} (hwf : keysNodup c) (x : Element) :
    entrySum c.atoms x = countOf c x :=
  entrySum_eq_lookupD hwf x

theorem entrySumOf_eq_sumOf {rs : List Reactant}
    (hwf : ∀ r ∈ rs, keysNodup r.compound) (x : Element) :
    entrySumOf rs x = sumOf rs x := by
  unfold entrySumOf sumOf
  induction rs with
  | nil => simp
  | cons r rest ih =>
    simp only [List.map_cons, List.sum_cons]
    rw [entrySum_eq_countOf (hwf r (List.mem_cons_self r rest)) x,
      ih (fun q hq => hwf q (List.mem_cons_of_mem r hq))]

/-- Conservation from the `check_balance` verdict: if the two total maps are
equal and the atom maps are well formed, the per-element mathematical sums
agree. -/
theorem check_balance_sums {rs ps : List Reactant}
    (hr : ∀ r ∈ rs, keysNodup r.compound) (hp : ∀ r ∈ ps, keysNodup r.compound)
    (h : check_balance rs ps = true) (e : Element) :
    sumOf rs e = sumOf ps e := by
  have h1 := mapEqB_lookupD (h : mapEqB (elemTotals rs) (elemTotals ps) = true) e
  rw [lookupD_elemTotals, lookupD_elemTotals] at h1
  rw [← entrySumOf_eq_sumOf hr e, ← entrySumOf_eq_sumOf hp e]
  exact h1

/-! Inversion of the `balance` pipeline. -/

/-- Inversion of a successful `balanceWith` run: the element-set check passed,
the scaled-coefficient pipeline succeeded, the result is the zipped, u32-cast,
`split_at` list, and `check_balance` accepted it. -/
theorem balanceWith_ok {sol : List ℚ} {rg pd : List Compound} {br : BalancedReaction}
    (h : balanceWith sol rg pd = some (.ok br)) :
    setEqB (elementSet rg) (elementSet pd) = true ∧
    ∃ sc, scaledCoeffsOf sol = some (.ok sc) ∧
      br.reagents = (resultList rg pd sc).take rg.length ∧
      br.products = (resultList rg pd sc).drop rg.length ∧
      check_balance br.reagents br.products = true := by
  simp only [balanceWith] at h
  cases hset : setEqB (elementSet rg) (elementSet pd) with
  | false =>
    rw [hset] at h
    simp at h
  | true =>
    rw [hset] at h
    simp only [Bool.not_true, Bool.false_eq_true, if_false] at h
    match hsc : scaledCoeffsOf sol with
    | none => rw [hsc] at h; simp at h
    | some (.error e) => rw [hsc] at h; simp at h
    | some (.ok sc) =>
      rw [hsc] at h
      simp only [List.splitAt_eq] at h
      rw [show ((allCompounds rg pd).zip sc).map
            (fun p => Reactant.of_compound p.1 (p.2 % 2 ^ 32)) = resultList rg pd sc
          from rfl] at h
      by_cases hlen : (resultList rg pd sc).length < rg.length
      · rw [if_pos hlen] at h
        simp at h
      · rw [if_neg hlen] at h
        cases hcb : check_balance
            ((resultList rg pd sc).take rg.length)
            ((resultList rg pd sc).drop rg.length) with
        | false =>
          rw [hcb] at h
          simp at h
        | true =>
          rw [hcb] at h
          simp only [if_true, Option.some.injEq, Except.ok.injEq] at h
          refine ⟨rfl, sc, rfl, ?_, ?_, ?_⟩
          · rw [← h]
          · rw [← h]
          · rw [← h]
            exact hcb

theorem mem_allCompounds {c : Compound} {rg pd : List Compound}
    (h : c ∈ allCompounds rg pd) : c ∈ rg ++ pd := by
  obtain ⟨e, _, hc⟩ := List.mem_flatMap.1 h
  exact hc

theorem resultList_compound_mem {r : Reactant} {rg pd : List Compound}
    {sc : List Nat} (h : r ∈ resultList rg pd sc) : r.compound ∈ rg ++ pd := by
  obtain ⟨p, hp, hr⟩ := List.mem_map.1 h
  have hmem := (List.of_mem_zip hp).1
  rw [← hr]
  exact mem_allCompounds hmem

theorem resultList_coeff_lt {r : Reactant} {rg pd : List Compound}
    {sc : List Nat} (h : r ∈ resultList rg pd sc) :
    r.molar_coefficient < 2 ^ 32 := by
  obtain ⟨p, _, hr⟩ := List.mem_map.1 h
  rw [← hr]
  exact Nat.mod_lt _ (by norm_num)

/-- C1.  On every input where `balance` returns `Ok`, the per-element atom
totals (count times molar coefficient, summed over each side) agree for every
element, and the two per-element total maps built by `check_balance` are
exactly equal — by the structure of `balance`, an unequal pair of maps forces
the `Err` branch, so no `Ok` result can carry unequal maps. -/
theorem balance_ok_conservation {sol : List ℚ} {rg pd : List Compound}
    {br : BalancedReaction}
    (hwf : ∀ c ∈ rg ++ pd, keysNodup c)
    (h : balanceWith sol rg pd = some (.ok br)) :
    (∀ e : Element, sumOf br.reagents e = sumOf br.products e) ∧
    mapEqB (elemTotals br.reagents) (elemTotals br.products) = true := by
  obtain ⟨hset, sc, hsc, hre, hpr, hcb⟩ := balanceWith_ok h
  refine ⟨fun e => ?_, hcb⟩
  have hr : ∀ r ∈ br.reagents, keysNodup r.compound := by
    intro r hrr
    rw [hre] at hrr
    exact hwf _ (resultList_compound_mem (List.take_subset _ _ hrr))
  have hp : ∀ r ∈ br.products, keysNodup r.compound := by
    intro r hrr
    rw [hpr] at hrr
    exact hwf _ (resultList_compound_mem (List.drop_subset _ _ hrr))
  exact check_balance_sums hr hp hcb e

/-- Witness for C1 at the repository's own `Al + Cl2 = AlCl3` scenario with
the exact linear-system solution `[1, 3/2]`. -/
theorem balance_ok_conservation_witness :
    balanceWith [1, 3 / 2] [wAl, wCl2] [wAlCl3] = some (.ok wBr) ∧
    (∀ e : Element, sumOf wBr.reagents e = sumOf wBr.products e) := by
  have h : balanceWith [1, 3 / 2] [wAl, wCl2] [wAlCl3] = some (.ok wBr) := by decide
  exact ⟨h, (balance_ok_conservation (by decide) h).1⟩

/-- C3 is false as stated: `balance` can return `Ok` with a molar coefficient
of 0 — no positivity check exists anywhere in `solve.rs`. -/
theorem balance_zero_coefficient_cex :
    balanceWith [0, 1] [c3A, c3B] [c3D] = some (.ok c3Br) ∧
    ∃ r ∈ c3Br.reagents, r.molar_coefficient = 0 := by
  constructor
  · decide
  · exact ⟨⟨c3A, 0⟩, by decide, rfl⟩

/-- C3 amended: every molar coefficient of an accepted result is a u32 value,
in particular less than `2 ^ 32`; it need not be positive. -/
theorem balance_coeffs_u32 {sol : List ℚ} {rg pd : List Compound}
    {br : BalancedReaction} (h : balanceWith sol rg pd = some (.ok br)) :
    ∀ r ∈ br.reagents ++ br.products, r.molar_coefficient < 2 ^ 32 := by
  obtain ⟨hset, sc, hsc, hre, hpr, hcb⟩ := balanceWith_ok h
  intro r hr
  rcases List.mem_append.1 hr with hh | hh
  · rw [hre] at hh
    exact resultList_coeff_lt (List.take_subset _ _ hh)
  · rw [hpr] at hh
    exact resultList_coeff_lt (List.drop_subset _ _ hh)

theorem balance_coeffs_u32_witness :
    balanceWith [1, 3 / 2] [wAl, wCl2] [wAlCl3] = some (.ok wBr) ∧
    ∀ r ∈ wBr.reagents ++ wBr.products, r.molar_coefficient < 2 ^ 32 := by
  have h : balanceWith [1, 3 / 2] [wAl, wCl2] [wAlCl3] = some (.ok wBr) := by decide
  exact ⟨h, balance_coeffs_u32 h⟩

theorem zip_map_snd {α β γ : Type} (f : β → γ) :
    ∀ (l1 : List α) (l2 : List β),
      (l1.zip l2).map (fun p => f p.2) = (l2.take l1.length).map f
  | [], _ => by simp
  | _ :: _, [] => by simp
  | a :: l1, b :: l2 => by
    simp [List.zip_cons_cons, zip_map_snd f l1 l2]

/-- C10.  Every successful `balance` run produces molar coefficients that are
exactly the u64 scaled coefficients (scale appended) reduced modulo `2 ^ 32`:
the `coeff as u32` cast in the `Reactant::of_compound` call truncates with no
range check. -/
theorem balance_coeffs_mod_u32 {sol : List ℚ} {rg pd : List Compound}
    {br : BalancedReaction} (h : balanceWith sol rg pd = some (.ok br)) :
    ∃ sc, scaledCoeffsOf sol = some (.ok sc) ∧
      (br.reagents ++ br.products).map Reactant.molar_coefficient
        = (sc.take (allCompounds rg pd).length).map (fun v => v % 2 ^ 32) := by
  obtain ⟨hset, sc, hsc, hre, hpr, hcb⟩ := balanceWith_ok h
  refine ⟨sc, hsc, ?_⟩
  rw [hre, hpr, List.take_append_drop]
  rw [show (resultList rg pd sc).map Reactant.molar_coefficient
      = ((allCompounds rg pd).zip sc).map (fun p => p.2 % 2 ^ 32) by
    simp [resultList, Reactant.of_compound]]
  exact zip_map_snd (fun v => v % 2 ^ 32) (allCompounds rg pd) sc

/-- Witness for C10: the scaled coefficient `2 ^ 32 + 1` (a u64 value above the
u32 range) is silently truncated to 1 in an accepted result. -/
theorem balance_coeffs_mod_u32_witness :
    balanceWith [(2 ^ 32 + 1 : ℚ)] [c3A] [c3D] =
      some (.ok ⟨[⟨c3A, 1⟩], [⟨c3D, 1⟩]⟩) ∧
    scaledCoeffsOf [(2 ^ 32 + 1 : ℚ)] = some (.ok [2 ^ 32 + 1, 1]) ∧
    ∃ sc, scaledCoeffsOf [(2 ^ 32 + 1 : ℚ)] = some (.ok sc) ∧
      ((⟨[⟨c3A, 1⟩], [⟨c3D, 1⟩]⟩ : BalancedReaction).reagents
          ++ (⟨[⟨c3A, 1⟩], [⟨c3D, 1⟩]⟩ : BalancedReaction).products).map
        Reactant.molar_coefficient
        = (sc.take (allCompounds [c3A] [c3D]).length).map (fun v => v % 2 ^ 32) := by
  refine ⟨by decide, by decide, balance_coeffs_mod_u32 (by decide)⟩

/-! Claim C2: the element-symmetry early failure. -/

theorem contains_iff_mem {l : List Element} {a : Element} :
    l.contains a = true ↔ a ∈ l := by
  simp [List.contains_iff_exists_mem_beq, beq_iff_eq]

theorem mem_elementSet {cs : List Compound} {e : Element} :
    e ∈ elementSet cs ↔ ∃ c ∈ cs, e ∈ atomKeys c := by
  simp [elementSet, List.mem_dedup, List.mem_flatMap]

/-- C2.  Whenever the reagent element set and the product element set differ,
`balance` fails — for every solver output `sol`, so before any numeric work —
with the unbalanceable-formula error carrying exactly the reagent-only
elements and the product-only elements. -/
theorem balance_element_mismatch (sol : List ℚ) {rg pd : List Compound}
    (h : setEqB (elementSet rg) (elementSet pd) = false) :
    ∃ mp mr, balanceWith sol rg pd = some (.error (.unbalanceable mp mr)) ∧
      (∀ e, e ∈ mp ↔ (∃ c ∈ rg, e ∈ atomKeys c) ∧ ¬ ∃ c ∈ pd, e ∈ atomKeys c) ∧
      (∀ e, e ∈ mr ↔ (∃ c ∈ pd, e ∈ atomKeys c) ∧ ¬ ∃ c ∈ rg, e ∈ atomKeys c) := by
  refine ⟨(elementSet rg).filter (fun e => !((elementSet pd).contains e)),
    (elementSet pd).filter (fun e => !((elementSet rg).contains e)), ?_, ?_, ?_⟩
  · simp only [balanceWith, h, Bool.not_false, if_true]
  · intro e
    simp only [List.mem_filter, Bool.not_eq_true', ← Bool.not_eq_true,
      contains_iff_mem, mem_elementSet]
  · intro e
    simp only [List.mem_filter, Bool.not_eq_true', ← Bool.not_eq_true,
      contains_iff_mem, mem_elementSet]

theorem balance_element_mismatch_witness :
    setEqB (elementSet c2rg) (elementSet c2pd) = false ∧
    ∃ mp mr, balanceWith [] c2rg c2pd = some (.error (.unbalanceable mp mr)) ∧
      (∀ e, e ∈ mp ↔ (∃ c ∈ c2rg, e ∈ atomKeys c) ∧ ¬ ∃ c ∈ c2pd, e ∈ atomKeys c) ∧
      (∀ e, e ∈ mr ↔ (∃ c ∈ c2pd, e ∈ atomKeys c) ∧ ¬ ∃ c ∈ c2rg, e ∈ atomKeys c) :=
  ⟨by decide, balance_element_mismatch [] (by decide)⟩

/-! Claim C7: the single-denominator scale. -/

/-- C7 is false as stated: a single bounded coefficient 1/2 yields the
denominator vector `[2]`, but the scale `balance` computes is the pairwise
fold's default 1, not the denominator 2 — `combinations(2)` of a one-element
vector is empty and nothing is special-cased. -/
theorem single_denominator_scale_cex :
    denominatorsOf [mkRat 1 2] = .ok [2] ∧
    computeScale [2] = 1 ∧ ¬ computeScale [2] = 2 := by
  decide

/-- C7 amended: with exactly one denominator the pairwise fold has no pairs, so
the scale is the fold's initial value 1, whatever the denominator is. -/
theorem single_denominator_scale (d : Nat) : computeScale [d] = 1 := rfl

/-! Claim C8: no integrality check after scaling. -/

/-- C8 is false as stated: with bounded coefficients `[1/2, 1/3, 1/5]` the
scale is 15 and `(1/2) * 15 = 15/2` is not an integer, yet `balance` does not
fail — it silently uses the numerator 15 as the coefficient and returns `Ok`. -/
theorem scaling_no_integrality_check_cex :
    computeScale [2, 3, 5] = 15 ∧
    (mkRat 1 2 * (15 : ℚ)).den = 2 ∧
    balanceWith [mkRat 1 2, mkRat 1 3, mkRat 1 5] [c8A, c8B, c8C] [c8D] =
      some (.ok ⟨[⟨c8A, 15⟩, ⟨c8B, 5⟩, ⟨c8C, 3⟩], [⟨c8D, 15⟩]⟩) := by
  decide

/-- C8 amended: the scaling step of `balance` performs no integrality check;
whenever every scaled numerator is in u64 range, the step succeeds and returns
exactly the numerators (discarding any non-unit denominator).  Its only
failure mode is a numerator outside the u64 range. -/
theorem scaledOf_takes_numerators {scale : Nat} {qs : List ℚ}
    (h : ∀ q ∈ qs, 0 ≤ (q * (scale : ℚ)).num ∧ (q * (scale : ℚ)).num < 2 ^ 64) :
    scaledOf scale qs = .ok (qs.map (fun q => (q * (scale : ℚ)).num.toNat)) := by
  induction qs with
  | nil => rfl
  | cons q rest ih =>
    have hq := h q (List.mem_cons_self q rest)
    unfold scaledOf
    rw [show intToU64 (q * (scale : ℚ)).num = some (q * (scale : ℚ)).num.toNat from by
      unfold intToU64
      rw [if_pos ⟨hq.1, hq.2⟩]]
    rw [ih (fun r hr => h r (List.mem_cons_of_mem q hr))]
    simp

theorem scaledOf_takes_numerators_witness :
    (∀ q ∈ [mkRat 1 2], 0 ≤ (q * (15 : ℚ)).num ∧ (q * (15 : ℚ)).num < 2 ^ 64) ∧
    scaledOf 15 [mkRat 1 2] =
      .ok ([mkRat 1 2].map (fun q => (q * (15 : ℚ)).num.toNat)) :=
  ⟨by decide, scaledOf_takes_numerators (by decide)⟩

/-! Claim C9: pairwise-max-of-LCM versus the LCM of the whole set. -/

/-- C9 is false as stated: for the positive multiset `[2, 3, 5]` the maximum
pairwise LCM (the scale `balance` computes) is 15, while the LCM of the whole
set is 30. -/
theorem pairwise_max_lcm_cex :
    computeScale [2, 3, 5] = 15 ∧
    [2, 3, 5].foldr Nat.lcm 1 = 30 ∧
    ¬ computeScale [2, 3, 5] = [2, 3, 5].foldr Nat.lcm 1 := by
  decide

theorem mem_pairCombinations {p : Nat × Nat} :
    ∀ {l : List Nat}, p ∈ pairCombinations l → p.1 ∈ l ∧ p.2 ∈ l
  | [], h => by cases h
  | x :: xs, h => by
    rcases List.mem_append.1 h with h1 | h1
    · obtain ⟨y, hy, hp⟩ := List.mem_map.1 h1
      rw [← hp]
      exact ⟨List.mem_cons_self _ _, List.mem_cons_of_mem _ hy⟩
    · have := mem_pairCombinations h1
      exact ⟨List.mem_cons_of_mem _ this.1, List.mem_cons_of_mem _ this.2⟩

theorem dvd_foldr_lcm {a : Nat} {l : List Nat} (h : a ∈ l) :
    a ∣ l.foldr Nat.lcm 1 := by
  induction l with
  | nil => cases h
  | cons x xs ih =>
    rcases List.mem_cons.1 h with h1 | h1
    · rw [h1]
      exact Nat.dvd_lcm_left _ _
    · exact dvd_trans (ih h1) (Nat.dvd_lcm_right _ _)

theorem foldl_max_lcm_dvd {L : Nat} {pairs : List (Nat × Nat)} :
    ∀ {init : Nat}, init ∣ L → (∀ p ∈ pairs, Nat.lcm p.1 p.2 ∣ L) →
      pairs.foldl (fun acc p => max acc (Nat.lcm p.1 p.2)) init ∣ L := by
  induction pairs with
  | nil => intro init hinit _; exact hinit
  | cons p rest ih =>
    intro init hinit h
    simp only [List.foldl_cons]
    apply ih
    · rcases max_choice init (Nat.lcm p.1 p.2) with h1 | h1 <;> rw [h1]
      · exact hinit
      · exact h p (List.mem_cons_self _ _)
    · intro q hq
      exact h q (List.mem_cons_of_mem _ hq)

/-- C9 amended: the pairwise-max fold used for the scale always divides the LCM
of the whole denominator set (each pairwise LCM divides it and the fold result
is one of them, or the initial 1); it equals the full LCM for two-element sets
but not in general. -/
theorem computeScale_dvd_lcm (dens : List Nat) :
    computeScale dens ∣ dens.foldr Nat.lcm 1 := by
  apply foldl_max_lcm_dvd (Nat.one_dvd _)
  intro p hp
  have hm := mem_pairCombinations hp
  exact Nat.lcm_dvd (dvd_foldr_lcm hm.1) (dvd_foldr_lcm hm.2)

/-! Claim C4: shape and content of the stoichiometric matrix. -/

theorem setEqB_mem {a b : List Element} (h : setEqB a b = true) (e : Element) :
    e ∈ a ↔ e ∈ b := by
  rw [setEqB, Bool.and_eq_true, List.all_eq_true, List.all_eq_true] at h
  constructor
  · intro he
    have := h.1 e he
    simpa [contains_iff_mem] using this
  · intro he
    have := h.2 e he
    simpa [contains_iff_mem] using this

theorem elementSet_length_eq {rg pd : List Compound}
    (h : setEqB (elementSet rg) (elementSet pd) = true) :
    (elementSet rg).length = distinctElementCount rg pd ∧
    (elementSet pd).length = distinctElementCount rg pd := by
  have hmem : ∀ e, e ∈ rg.flatMap atomKeys ↔ e ∈ pd.flatMap atomKeys := by
    intro e
    have := setEqB_mem h e
    simpa [elementSet, List.mem_dedup] using this
  have hfin : (rg.flatMap atomKeys).toFinset = (pd.flatMap atomKeys).toFinset := by
    ext e
    simp only [List.mem_toFinset]
    exact hmem e
  have hlen1 : (elementSet rg).length = (rg.flatMap atomKeys).toFinset.card := by
    rw [List.card_toFinset]
    rfl
  have hlen2 : (elementSet pd).length = (pd.flatMap atomKeys).toFinset.card := by
    rw [List.card_toFinset]
    rfl
  have hdc : distinctElementCount rg pd = (rg.flatMap atomKeys).toFinset.card := by
    unfold distinctElementCount
    rw [← List.card_toFinset, List.flatMap_append, List.toFinset_append, hfin,
      Finset.union_self]
  refine ⟨?_, ?_⟩
  · rw [hlen1, hdc]
  · rw [hlen2, hdc, hfin]

theorem flatMap_getD_blocks {f : Element → List Nat} {c : Nat}
    (hlen : ∀ e, (f e).length = c) :
    ∀ (l : List Element) (i j : Nat), j < c → i < l.length →
      (l.flatMap f).getD (i * c + j) 0 = (f (l.getD i "")).getD j 0
  | [], i, j, _, hi => by simp at hi
  | x :: xs, 0, j, hj, _ => by
    simp only [List.flatMap_cons, Nat.zero_mul, Nat.zero_add]
    rw [List.getD_append _ _ 0 j (by rw [hlen x]; exact hj)]
    rfl
  | x :: xs, i + 1, j, hj, hi => by
    simp only [List.flatMap_cons]
    have hge : (f x).length ≤ (i + 1) * c + j := by
      rw [hlen x, Nat.succ_mul]
      omega
    rw [List.getD_append_right _ _ 0 _ hge]
    have harith : (i + 1) * c + j - (f x).length = i * c + j := by
      rw [hlen x, Nat.succ_mul]
      omega
    rw [harith]
    have := flatMap_getD_blocks hlen xs i j hj (Nat.lt_of_succ_lt_succ hi)
    simpa using this

theorem map_countOf_getD {cs : List Compound} {e : Element} {j : Nat}
    (hj : j < cs.length) :
    ((cs.map (fun c => countOf c e)).getD j 0) = countOf (cs.getD j ⟨"", []⟩) e := by
  rw [List.getD_eq_getElem?_getD, List.getElem?_map, List.getD_eq_getElem?_getD,
    List.getElem?_eq_getElem hj]
  simp

/-- C4 is false as stated: this input passes the element-symmetry check and has
exactly one distinct element, yet the matrix `balance` builds has two rows —
`all_atoms` chains the reagent element set with the (equal) product element
set, so every distinct element contributes one row per side. -/
theorem matrix_rows_cex :
    setEqB (elementSet c4rg) (elementSet c4pd) = true ∧
    distinctElementCount c4rg c4pd = 1 ∧
    matrixRows c4rg c4pd = 2 ∧
    ¬ matrixRows c4rg c4pd = distinctElementCount c4rg c4pd := by
  decide

/-- C4 amended: for inputs passing the element-symmetry check, the matrix has
`2 * |distinct elements|` rows (one per element per side, the two sides having
equal element sets), `|reagents| + |products|` columns in reagents-then-products
order, a data vector of exactly `rows * cols` entries, and entry `(i, j)` equal
to the atom count of row element `i` in column compound `j` (0 if absent). -/
theorem matrix_shape {rg pd : List Compound}
    (h : setEqB (elementSet rg) (elementSet pd) = true) :
    matrixRows rg pd = 2 * distinctElementCount rg pd ∧
    matrixCols rg pd = rg.length + pd.length ∧
    (matrixData rg pd).length = matrixRows rg pd * matrixCols rg pd ∧
    (∀ i j, i < matrixRows rg pd → j < matrixCols rg pd →
      (matrixData rg pd).getD (i * matrixCols rg pd + j) 0
        = countOf ((rg ++ pd).getD j ⟨"", []⟩) ((allAtoms rg pd).getD i "")) := by
  obtain ⟨h1, h2⟩ := elementSet_length_eq h
  have hlen : ∀ e : Element,
      ((rg ++ pd).map (fun c => countOf c e)).length = matrixCols rg pd := by
    intro e
    simp [matrixCols]
  refine ⟨?_, rfl, ?_, ?_⟩
  · unfold matrixRows allAtoms
    rw [List.length_append, h1, h2]
    omega
  · unfold matrixData matrixRows
    rw [List.length_flatMap]
    have hmap : (allAtoms rg pd).map
        (List.length ∘ fun e => ((rg ++ pd).map (fun c => countOf c e)))
        = (allAtoms rg pd).map (fun _ => matrixCols rg pd) := by
      apply List.map_congr_left
      intro e _
      exact hlen e
    rw [hmap, List.map_const', List.sum_replicate, smul_eq_mul]
  · intro i j hi hj
    have hstep := flatMap_getD_blocks hlen (allAtoms rg pd) i j hj hi
    rw [matrixData, hstep,
      map_countOf_getD (by simpa [matrixCols, List.length_append] using hj)]

theorem matrix_shape_witness :
    setEqB (elementSet [wAl, wCl2]) (elementSet [wAlCl3]) = true ∧
    (matrixRows [wAl, wCl2] [wAlCl3]
        = 2 * distinctElementCount [wAl, wCl2] [wAlCl3] ∧
      matrixCols [wAl, wCl2] [wAlCl3] = 3 ∧
      (matrixData [wAl, wCl2] [wAlCl3]).length
        = matrixRows [wAl, wCl2] [wAlCl3] * matrixCols [wAl, wCl2] [wAlCl3] ∧
      (∀ i j, i < matrixRows [wAl, wCl2] [wAlCl3] →
        j < matrixCols [wAl, wCl2] [wAlCl3] →
        (matrixData [wAl, wCl2] [wAlCl3]).getD
            (i * matrixCols [wAl, wCl2] [wAlCl3] + j) 0
          = countOf (([wAl, wCl2] ++ [wAlCl3]).getD j ⟨"", []⟩)
              ((allAtoms [wAl, wCl2] [wAlCl3]).getD i ""))) :=
  ⟨by decide, matrix_shape (by decide)⟩

/-! Claims C5 and C6: the continued-fraction denominator-limiting loop.
The key invariant is the continuant identity `q1 * n + q0 * d = D` (with `D`
the original denominator), preserved by every committed iteration; at a state
with `d = 0` it forces `q1 = D > maxD`, contradicting the commit bound
`q1 ≤ maxD` — so the division `n / d` never sees `d = 0` and the loop always
breaks out with committed convergents. -/

theorem cfLoop_exits {maxD D : Nat} (hD : maxD < D) :
    ∀ fuel p0 q0 p1 q1 n d,
      d < fuel → d < n → 1 ≤ q1 → q1 ≤ maxD → q0 ≤ maxD →
      q1 * n + q0 * d = D → Nat.gcd n d = 1 →
      ∃ r0 s0 r1 s1,
        cfLoop maxD fuel p0 q0 p1 q1 n d = some (r0, s0, r1, s1) ∧
        1 ≤ s1 ∧ s1 ≤ maxD ∧ s0 ≤ maxD := by
  intro fuel
  induction fuel with
  | zero =>
    intro p0 q0 p1 q1 n d hfuel
    exact absurd hfuel (Nat.not_lt_zero d)
  | succ fuel ih =>
    intro p0 q0 p1 q1 n d hfuel hdn hq1 hq1le hq0le hid hgcd
    by_cases hd : d = 0
    · subst hd
      rw [Nat.gcd_zero_right] at hgcd
      subst hgcd
      omega
    · have hdpos : 0 < d := Nat.pos_of_ne_zero hd
      have ha : 1 ≤ n / d := (Nat.one_le_div_iff hdpos).2 (le_of_lt hdn)
      by_cases hq2 : maxD < q0 + n / d * q1
      · refine ⟨p0, q0, p1, q1, ?_, hq1, hq1le, hq0le⟩
        simp only [cfLoop, if_neg hd]
        rw [if_pos hq2]
      · have hmod : n % d < d := Nat.mod_lt n hdpos
        have hdm := Nat.div_add_mod n d
        have hone : 1 * 1 ≤ n / d * q1 := Nat.mul_le_mul ha hq1
        have hrec := ih p1 q1 (p0 + n / d * p1) (q0 + n / d * q1) d (n % d)
          (by omega) hmod
          (by omega)
          (by omega)
          hq1le
          (by
            calc (q0 + n / d * q1) * d + q1 * (n % d)
                = q0 * d + q1 * (d * (n / d) + n % d) := by ring
              _ = q0 * d + q1 * n := by rw [hdm]
              _ = D := by omega)
          (by
            rw [Nat.gcd_comm d (n % d), ← Nat.gcd_rec, Nat.gcd_comm]
            exact hgcd)
        obtain ⟨r0, s0, r1, s1, heq, h1, h2, h3⟩ := hrec
        refine ⟨r0, s0, r1, s1, ?_, h1, h2, h3⟩
        simp only [cfLoop, if_neg hd]
        rw [if_neg hq2]
        exact heq

theorem cfLoop_first_step {maxD n d : Nat} (hd : d ≠ 0) (hmax : 1 ≤ maxD) :
    cfLoop maxD (d + 1) 0 1 1 0 n d = cfLoop maxD d 1 0 (n / d) 1 d (n % d) := by
  simp only [cfLoop, if_neg hd]
  rw [if_neg (show ¬ maxD < 1 + n / d * 0 by omega)]
  norm_num

theorem mkRat_den_le {n : ℤ} {d : Nat} (hd : d ≠ 0) : (mkRat n d).den ≤ d := by
  rw [Rat.mkRat_def, dif_neg hd, Rat.normalize_eq]
  exact Nat.div_le_self _ _

/-- Core of the denominator-limiting correctness, shared by the bound result
and the no-panic result: for every positive rational whose numerator and
denominator fit in u64, `limit_denominator(r, 100)` returns `Ok` with a
denominator of at most 100, and when the denominator is already at most 100 it
returns `r` itself unchanged. -/
theorem limit_denominator_ok_core {r : ℚ} (h0 : 0 < r) (hn : r.num < 2 ^ 64)
    (hdb : r.den < 2 ^ 64) :
    ∃ q : ℚ, limit_denominator r 100 = some (.ok q) ∧ q.den ≤ 100 ∧
      (r.den ≤ 100 → q = r) := by
  by_cases hden : r.den ≤ 100
  · refine ⟨r, ?_, hden, fun _ => rfl⟩
    unfold limit_denominator
    rw [if_pos (Or.inr hden)]
  · push_neg at hden
    have hdpos : 0 < r.den := r.pos
    have hd0 : r.den ≠ 0 := Nat.pos_iff_ne_zero.1 hdpos
    have hnum0 : 0 ≤ r.num := le_of_lt (Rat.num_pos.2 h0)
    have hint : intToU64 r.num = some r.num.toNat := by
      unfold intToU64
      rw [if_pos ⟨hnum0, hn⟩]
    have hnat : natToU64 r.den = some r.den := by
      unfold natToU64
      rw [if_pos hdb]
    have hgcd : Nat.gcd r.num.toNat r.den = 1 := by
      have hred := r.reduced
      have habs : r.num.natAbs = r.num.toNat := by omega
      rw [← habs]
      exact hred
    have hnd : r.den < r.num.toNat ∨ r.num.toNat % r.den < r.den := by
      right
      exact Nat.mod_lt _ hdpos
    have hmod : r.num.toNat % r.den < r.den := Nat.mod_lt _ hdpos
    have hfirst : cfLoop 100 (r.den + 1) 0 1 1 0 r.num.toNat r.den
        = cfLoop 100 r.den 1 0 (r.num.toNat / r.den) 1 r.den (r.num.toNat % r.den) :=
      cfLoop_first_step hd0 (by norm_num)
    obtain ⟨r0, s0, r1, s1, hloop, hs1pos, hs1le, hs0le⟩ :=
      @cfLoop_exits 100 r.den hden r.den 1 0 (r.num.toNat / r.den) 1 r.den
        (r.num.toNat % r.den) hmod hmod (le_refl 1) (by norm_num) (by norm_num)
        (by omega)
        (by
          rw [Nat.gcd_comm r.den (r.num.toNat % r.den), ← Nat.gcd_rec, Nat.gcd_comm]
          exact hgcd)
    have heq : limit_denominator r 100 =
        some (.ok
          (if |mkRat (↑(r0 + (100 - s0) / s1 * r1)) (s0 + (100 - s0) / s1 * s1) - r|
              ≤ |mkRat (↑r1) s1 - r|
          then mkRat (↑(r0 + (100 - s0) / s1 * r1)) (s0 + (100 - s0) / s1 * s1)
          else mkRat (↑r1) s1)) := by
      unfold limit_denominator
      rw [if_neg (show ¬ (100 < 1 ∨ r.den ≤ 100) by omega)]
      simp only [hint, hnat, hfirst, hloop]
    refine ⟨_, heq, ?_, fun hcon => absurd hcon (by omega)⟩
    have hb2 : (mkRat (↑r1) s1).den ≤ 100 :=
      le_trans (mkRat_den_le (by omega)) hs1le
    have hkact : (100 - s0) / s1 * s1 ≤ 100 - s0 := Nat.div_mul_le_self _ _
    have hb1den_le : s0 + (100 - s0) / s1 * s1 ≤ 100 := by omega
    have hb1den_pos : s0 + (100 - s0) / s1 * s1 ≠ 0 := by
      rcases Nat.eq_zero_or_pos s0 with hs0 | hs0
      · have hk1 : 1 ≤ (100 - s0) / s1 := by
          apply (Nat.one_le_div_iff (by omega)).2
          omega
        have hks : 1 * 1 ≤ (100 - s0) / s1 * s1 := Nat.mul_le_mul hk1 hs1pos
        omega
      · omega
    have hb1 : (mkRat (↑(r0 + (100 - s0) / s1 * r1))
        (s0 + (100 - s0) / s1 * s1)).den ≤ 100 :=
      le_trans (mkRat_den_le hb1den_pos) hb1den_le
    by_cases hcomp : |mkRat (↑(r0 + (100 - s0) / s1 * r1))
        (s0 + (100 - s0) / s1 * s1) - r| ≤ |mkRat (↑r1) s1 - r|
    · rw [if_pos hcomp]
      exact hb1
    · rw [if_neg hcomp]
      exact hb2

/-- C5 is false as stated over all positive rationals: for `2 ^ 64 / 101`
(positive, denominator 101 above the bound) `limit_denominator` returns `Err`
— the numerator does not fit in u64 — rather than a rational with denominator
at most 100. -/
theorem limit_denominator_u64_cex :
    0 < ((2 : ℚ) ^ 64 / 101) ∧
    ((2 : ℚ) ^ 64 / 101).den = 101 ∧
    limit_denominator ((2 : ℚ) ^ 64 / 101) 100 = some (.error .noNumerator) := by
  refine ⟨by decide, by decide, by decide⟩

/-- C5 amended: for every positive rational whose numerator and denominator
fit in u64, `limit_denominator(r, 100)` returns `Ok` with a denominator of at
most 100, and when the denominator is already at most 100 it returns `r`
itself unchanged (so an integer-valued rational is a fixed point). -/
theorem limit_denominator_ok {r : ℚ} (h0 : 0 < r) (hn : r.num < 2 ^ 64)
    (hdb : r.den < 2 ^ 64) :
    ∃ q : ℚ, limit_denominator r 100 = some (.ok q) ∧ q.den ≤ 100 ∧
      (r.den ≤ 100 → q = r) :=
  limit_denominator_ok_core h0 hn hdb

theorem limit_denominator_ok_witness :
    (0 < (mkRat 1 101 : ℚ) ∧ (mkRat 1 101 : ℚ).num < 2 ^ 64 ∧
      (mkRat 1 101 : ℚ).den < 2 ^ 64) ∧
    ∃ q : ℚ, limit_denominator (mkRat 1 101) 100 = some (.ok q) ∧ q.den ≤ 100 ∧
      ((mkRat 1 101 : ℚ).den ≤ 100 → q = mkRat 1 101) :=
  ⟨⟨by decide, by decide, by decide⟩,
    limit_denominator_ok (by decide) (by decide) (by decide)⟩

/-- C6.  For every positive rational with denominator above the fixed bound
100 the continued-fraction loop terminates and never divides by zero: the
model returns `some` (its `none` value is the image of the `n / d` panic at
`d = 0` and of fuel exhaustion, and `cfLoop_exits` rules both out — the
committed convergent denominators stay at most 100 while the continuant
identity forces `q1 = den > 100` at any `d = 0` state). -/
theorem limit_denominator_no_panic (r : ℚ) (h0 : 0 < r) (hden : 100 < r.den) :
    (limit_denominator r 100).isSome = true := by
  by_cases hn : r.num < 2 ^ 64
  · by_cases hdb : r.den < 2 ^ 64
    · obtain ⟨q, hq, _, _⟩ := limit_denominator_ok_core h0 hn hdb
      rw [hq]
      rfl
    · have hint : intToU64 r.num = some r.num.toNat := by
        unfold intToU64
        rw [if_pos ⟨le_of_lt (Rat.num_pos.2 h0), hn⟩]
      have hnat : natToU64 r.den = none := by
        unfold natToU64
        rw [if_neg hdb]
      unfold limit_denominator
      rw [if_neg (show ¬ (100 < 1 ∨ r.den ≤ 100) by omega)]
      simp only [hint, hnat]
      rfl
  · have hint : intToU64 r.num = none := by
      unfold intToU64
      rw [if_neg (fun hc => hn hc.2)]
    unfold limit_denominator
    rw [if_neg (show ¬ (100 < 1 ∨ r.den ≤ 100) by omega)]
    simp only [hint]
    rfl

theorem limit_denominator_no_panic_witness :
    0 < (mkRat 355 113 : ℚ) ∧ 100 < (mkRat 355 113 : ℚ).den ∧
    (limit_denominator (mkRat 355 113) 100).isSome = true :=
  ⟨by decide, by decide, limit_denominator_no_panic _ (by decide) (by decide)⟩

end StoichKit
